import Mathlib

/-!
Verification of the duplicate-file scanner `scan_dir_for_duplicates.py`.

The scanner enumerates the regular, non-symlink files of one directory,
groups them by byte size, drops singleton size groups, hashes the content
of the survivors with BLAKE2s-256 (reading in `blocksize` chunks), groups
by hex digest, drops singleton digest groups, and keeps the result in
`self.duplicates`.

The embedding models a directory as a list of `DirEntry` values carrying a
name, the `is_file` / `is_symlink` flags and the byte content; `st_size`
is the content length, matching a consistent filesystem.  Python's
insertion-ordered `dict` is modelled as an association list built by
`addToBucket`.  The BLAKE2s-256 function of `hashlib` is implemented in
full (RFC 7693) so every definition is executable.  A second model,
`scanE`, threads the fallible filesystem calls (`os.scandir`, `stat`,
`open`/`read`) through `Except`, mirroring that the Python code installs
no exception handler: any raised error propagates out of `__init__`.
-/

namespace ScanDup

/-- Right rotation of a 32-bit value (a `Nat` below `2 ^ 32`) by `n`. -/
def rotr (n x : Nat) : Nat :=
  (x >>> n) ||| ((x % (2 ^ n)) <<< (32 - n))

/-- BLAKE2s initialization vector (RFC 7693, section 2.6). -/
def IVect : List Nat :=
  [0x6A09E667, 0xBB67AE85, 0x3C6EF372, 0xA54FF53A,
   0x510E527F, 0x9B05688C, 0x1F83D9AB, 0x5BE0CD19]

/-- Message schedule permutations of BLAKE2 (RFC 7693, section 2.7). -/
def SIGMA : List (List Nat) :=
  [[0, 1, 2, 3, 4, 5, 6, 7, 8, 9, 10, 11, 12, 13, 14, 15],
   [14, 10, 4, 8, 9, 15, 13, 6, 1, 12, 0, 2, 11, 7, 5, 3],
   [11, 8, 12, 0, 5, 2, 15, 13, 10, 14, 3, 6, 7, 1, 9, 4],
   [7, 9, 3, 1, 13, 12, 11, 14, 2, 6, 5, 10, 4, 0, 15, 8],
   [9, 0, 5, 7, 2, 4, 10, 15, 14, 1, 11, 12, 6, 8, 3, 13],
   [2, 12, 6, 10, 0, 11, 8, 3, 4, 13, 7, 5, 15, 14, 1, 9],
   [12, 5, 1, 15, 14, 13, 4, 10, 0, 7, 6, 3, 9, 2, 8, 11],
   [13, 11, 7, 14, 12, 1, 3, 9, 5, 0, 15, 4, 8, 6, 2, 10],
   [6, 15, 14, 9, 11, 3, 0, 8, 12, 2, 13, 7, 1, 4, 10, 5],
   [10, 2, 8, 4, 7, 6, 1, 5, 15, 11, 9, 14, 3, 12, 13, 0]]

/-- Mixing function G of BLAKE2s (RFC 7693, section 3.1) on the 16-word
work vector `v` at indices `a b c d` with message words `x y`. -/
def gMix (v : List Nat) (a b c d x y : Nat) : List Nat :=
  let va := (v.getD a 0 + v.getD b 0 + x) % 2 ^ 32
  let vd := rotr 16 (v.getD d 0 ^^^ va)
  let vc := (v.getD c 0 + vd) % 2 ^ 32
  let vb := rotr 12 (v.getD b 0 ^^^ vc)
  let va := (va + vb + y) % 2 ^ 32
  let vd := rotr 8 (vd ^^^ va)
  let vc := (vc + vd) % 2 ^ 32
  let vb := rotr 7 (vb ^^^ vc)
  (((v.set a va).set b vb).set c vc).set d vd

/-- One round of the BLAKE2s compression function: eight G applications
driven by the round's message schedule `s`. -/
def blakeRound (m : List Nat) (v : List Nat) (s : List Nat) : List Nat :=
  let mi := fun i => m.getD (s.getD i 0) 0
  let v := gMix v 0 4 8 12 (mi 0) (mi 1)
  let v := gMix v 1 5 9 13 (mi 2) (mi 3)
  let v := gMix v 2 6 10 14 (mi 4) (mi 5)
  let v := gMix v 3 7 11 15 (mi 6) (mi 7)
  let v := gMix v 0 5 10 15 (mi 8) (mi 9)
  let v := gMix v 1 6 11 12 (mi 10) (mi 11)
  let v := gMix v 2 7 8 13 (mi 12) (mi 13)
  gMix v 3 4 9 14 (mi 14) (mi 15)

/-- Compression function F of BLAKE2s (RFC 7693, section 3.2): chaining
state `h`, message block `m` (16 words), byte counter `t`, final flag `f`. -/
def compress (h : List Nat) (m : List Nat) (t : Nat) (f : Bool) : List Nat :=
  let v := h ++ IVect
  let v := v.set 12 (v.getD 12 0 ^^^ (t % 2 ^ 32))
  let v := v.set 13 (v.getD 13 0 ^^^ (t / 2 ^ 32 % 2 ^ 32))
  let v := if f then v.set 14 (v.getD 14 0 ^^^ 0xFFFFFFFF) else v
  let v := SIGMA.foldl (blakeRound m) v
  (List.range 8).map (fun i => h.getD i 0 ^^^ v.getD i 0 ^^^ v.getD (i + 8) 0)

/-- Chunking worker, structurally recursive on a fuel bound: each step
removes `n + 1` elements, so `fuel = l.length` always suffices. -/
def chunksOfAux (fuel n : Nat) (l : List α) : List (List α) :=
  match fuel, l with
  | _, [] => []
  | 0, _ :: _ => []
  | fuel + 1, x :: xs => ((x :: xs).take (n + 1)) :: chunksOfAux fuel n ((x :: xs).drop (n + 1))

/-- Consecutive chunks of `n + 1` elements of a list (the last chunk may
be shorter); the empty list yields no chunks. -/
def chunksOf (n : Nat) (l : List α) : List (List α) :=
  chunksOfAux l.length n l

/-- Decoding of a 64-byte block into 16 little-endian 32-bit words. -/
def bytesToWordsLE (block : List Nat) : List Nat :=
  (List.range 16).map (fun j =>
    block.getD (4 * j) 0 + block.getD (4 * j + 1) 0 * 256 +
    block.getD (4 * j + 2) 0 * 65536 + block.getD (4 * j + 3) 0 * 16777216)

/-- Encoding of a 32-bit word as its 4 little-endian bytes. -/
def wordToBytesLE (w : Nat) : List Nat :=
  [w % 256, w / 256 % 256, w / 65536 % 256, w / 16777216 % 256]

/-- Block loop of BLAKE2s (RFC 7693, section 3.3): every block but the
last is compressed with the running byte counter and `f = false`; the
last with the total message length `ll` and `f = true`. -/
def blake2sLoop (ll : Nat) (h : List Nat) (blocks : List (List Nat)) (processed : Nat) : List Nat :=
  match blocks with
  | [] => h
  | [b] => compress h (bytesToWordsLE b) ll true
  | b :: b2 :: rest =>
      blake2sLoop ll (compress h (bytesToWordsLE b) (processed + 64) false) (b2 :: rest) (processed + 64)

/-- BLAKE2s-256 digest (32 bytes) of a byte sequence: RFC 7693, unkeyed,
digest length nn = 32, hence the parameter word `0x01010020` xored into
the first state word.  This is `hashlib.blake2s` at its default size. -/
def blake2s (msg : List Nat) : List Nat :=
  let h0 := (0x6A09E667 ^^^ 0x01010020) :: IVect.drop 1
  let blocks :=
    if msg.isEmpty then [List.replicate 64 0]
    else chunksOf 63 (msg ++ List.replicate ((64 - msg.length % 64) % 64) 0)
  let h := blake2sLoop msg.length h0 blocks 0
  (h.take 8).flatMap wordToBytesLE

/-- Lowercase hexadecimal digit of a value below 16. -/
def hexChar (n : Nat) : Char :=
  if n < 10 then Char.ofNat (48 + n) else Char.ofNat (87 + n)

/-- Two lowercase hex digits of one byte. -/
def hexOfByte (b : Nat) : List Char :=
  [hexChar (b / 16), hexChar (b % 16)]

/-- Lowercase hex string of a byte sequence, as Python's `hexdigest`. -/
def hexdigest (bytes : List Nat) : String :=
  String.mk (bytes.flatMap hexOfByte)

/-- The sixteen characters a lowercase hex string may contain. -/
def hexAlphabet : List Char := "0123456789abcdef".toList

/-- An `os.DirEntry` as the scanner sees it: name, the two flags queried
by `scan_for_files`, and the byte content backing both `stat().st_size`
and the data read while hashing (a consistent filesystem snapshot). -/
structure DirEntry where
  name : String
  is_file : Bool
  is_symlink : Bool
  content : List Nat
deriving DecidableEq

/-- Size in bytes reported by `entry.stat().st_size`. -/
def DirEntry.st_size (e : DirEntry) : Nat := e.content.length

/-- Chunk size used while hashing (`ScanDirForDuplicates.blocksize`). -/
def blocksize : Nat := 65536

/-- The file list produced by `scan_for_files`: the directory listing
filtered to regular files that are not symbolic links. -/
def scan_for_files (listing : List DirEntry) : List DirEntry :=
  listing.filter (fun e => e.is_file && !e.is_symlink)

/-- One insert-or-append step of a Python dict used as a multimap:
`by[k].append(e)` when the key is present, `by[k] = [e]` (at the end,
preserving insertion order of keys) when it is not. -/
def addToBucket [DecidableEq κ] (d : List (κ × List α)) (k : κ) (e : α) : List (κ × List α) :=
  match d with
  | [] => [(k, [e])]
  | (k2, v) :: rest =>
      if k2 = k then (k2, v ++ [e]) :: rest else (k2, v) :: addToBucket rest k e

/-- Grouping loop shared by `find_duplicates_size` and
`find_duplicates_hash`: fold the entries into buckets keyed by `key`. -/
def groupByKey [DecidableEq κ] (key : α → κ) (l : List α) : List (κ × List α) :=
  l.foldl (fun acc e => addToBucket acc (key e) e) []

/-- `remove_unique`: keep only the keys whose list has more than one
element. -/
def remove_unique [DecidableEq κ] (d : List (κ × List α)) : List (κ × List α) :=
  d.filter (fun p => decide (1 < p.2.length))

/-- `find_duplicates_size`: group the file list by `st_size`, then drop
singleton groups. -/
def find_duplicates_size (fl : List DirEntry) : List (Nat × List DirEntry) :=
  remove_unique (groupByKey DirEntry.st_size fl)

/-- The successive buffers returned by `f.read(blocksize)` until empty:
chunks of `blocksize` bytes of the file content.  (`chunksOf n` makes
chunks of `n + 1` elements, hence the `blocksize - 1`.) -/
def readChunks (content : List Nat) : List (List Nat) :=
  chunksOf (blocksize - 1) content

/-- `get_hash`: feed each read chunk to the incremental hasher (modelled
as accumulating the bytes fed so far) and return the final hexdigest. -/
def get_hash (e : DirEntry) : String :=
  hexdigest (blake2s ((readChunks e.content).foldl (fun acc b => acc ++ b) []))

/-- `find_duplicates_hash`: for each surviving size group, hash each of
its files into hash buckets, then drop singleton buckets. -/
def find_duplicates_hash (ds : List (Nat × List DirEntry)) : List (String × List DirEntry) :=
  remove_unique
    (ds.foldl (fun acc p => p.2.foldl (fun acc2 e => addToBucket acc2 (get_hash e) e) acc) [])

/-- Instrumentation of the hashing stage: the exact sequence of entries
`find_duplicates_hash` passes to `get_hash` (the files of the surviving
size groups, in loop order), one `get_hash` invocation per element. -/
def hashInvocations (listing : List DirEntry) : List DirEntry :=
  ((find_duplicates_size (scan_for_files listing)).map Prod.snd).flatten

/-- `self.duplicates` after `__init__`: the composed pipeline. -/
def duplicates (listing : List DirEntry) : List (String × List DirEntry) :=
  find_duplicates_hash (find_duplicates_size (scan_for_files listing))

/-- Total number of occurrences of an entry across all member sequences
of the final result. -/
def resultCount (e : DirEntry) (listing : List DirEntry) : Nat :=
  ((duplicates listing).map (fun p => p.2.count e)).sum

/-- The error kinds a scan can raise (section 7 of the design). -/
inductive ScanError where
  | notFound
  | notADirectory
  | permissionDenied
  | metadataUnavailable
  | ioError
deriving DecidableEq

/-- Equality of `Except` values is decidable when it is on both sides. -/
instance [DecidableEq ε] [DecidableEq α] : DecidableEq (Except ε α)
  | .error x, .error y =>
      if h : x = y then isTrue (congrArg Except.error h)
      else isFalse (fun hc => h (Except.error.inj hc))
  | .error _, .ok _ => isFalse (fun hc => Except.noConfusion hc)
  | .ok _, .error _ => isFalse (fun hc => Except.noConfusion hc)
  | .ok x, .ok y =>
      if h : x = y then isTrue (congrArg Except.ok h)
      else isFalse (fun hc => h (Except.ok.inj hc))

/-- A directory entry with fallible metadata and content access:
`statRes` is what `entry.stat().st_size` returns or raises, `readRes`
what opening and reading the file yields or raises. -/
structure FSEntry where
  name : String
  is_file : Bool
  is_symlink : Bool
  statRes : Except ScanError Nat
  readRes : Except ScanError (List Nat)
deriving DecidableEq

/-- A filesystem as the scan consumes it: what `os.scandir` returns or
raises. -/
structure FS where
  scandirRes : Except ScanError (List FSEntry)
deriving DecidableEq

/-- Whether an `Except` value is a success. -/
def exOk (x : Except ScanError α) : Bool :=
  match x with
  | .ok _ => true
  | .error _ => false

/-- The size an entry reports when its `stat` succeeds (and a default
when it does not; only used under a success hypothesis). -/
def statVal (e : FSEntry) : Nat :=
  match e.statRes with
  | .ok n => n
  | .error _ => 0

/-- Fallible `scan_for_files`: `os.scandir` may raise; the filter itself
cannot fail. -/
def scan_for_filesE (fs : FS) : Except ScanError (List FSEntry) := do
  let data ← fs.scandirRes
  pure (data.filter (fun e => e.is_file && !e.is_symlink))

/-- Fallible `find_duplicates_size`: one `stat` call per entry inside the
grouping loop; a raise aborts the loop (no handler in the source). -/
def find_duplicates_sizeE (fl : List FSEntry) : Except ScanError (List (Nat × List FSEntry)) := do
  let by_size ← fl.foldlM (fun acc e => do
    let size ← e.statRes
    pure (addToBucket acc size e)) []
  pure (remove_unique by_size)

/-- Fallible `get_hash`: opening/reading the file may raise; on success
the digest is that of the chunked content, as in the pure model. -/
def get_hashE (e : FSEntry) : Except ScanError String := do
  let content ← e.readRes
  pure (hexdigest (blake2s ((readChunks content).foldl (fun acc b => acc ++ b) [])))

/-- Fallible `find_duplicates_hash`: the nested loops hash each file of
each surviving size group; a raise aborts everything. -/
def find_duplicates_hashE (ds : List (Nat × List FSEntry)) : Except ScanError (List (String × List FSEntry)) := do
  let by_hash ← ds.foldlM (fun acc p => p.2.foldlM (fun acc2 e => do
    let h ← get_hashE e
    pure (addToBucket acc2 h e)) acc) []
  pure (remove_unique by_hash)

/-- Fallible `__init__` pipeline: any error raised by enumeration, a
`stat`, or a hash-time open/read propagates out unhandled. -/
def scanE (fs : FS) : Except ScanError (List (String × List FSEntry)) := do
  let fl ← scan_for_filesE fs
  let ds ← find_duplicates_sizeE fl
  find_duplicates_hashE ds

/-- The scanner state `__str__` reads: `self.path` and
`self.duplicates`. -/
structure ScannerState where
  path : String
  duplicates : List (String × List DirEntry)
deriving DecidableEq

/-- Size printed for a duplicate group: `files[0].stat().st_size`.  The
groups reaching it are never empty, so the default is unreachable. -/
def firstSize (l : List DirEntry) : Nat :=
  (l.headD ⟨"", false, false, []⟩).st_size

/-- The `__str__` method as written: the emptiness test and the path read
`self`, but the loop iterates over `d.duplicates`, where `d` is the
module-level global bound only by the demo code at the bottom of the
file.  `d` is therefore a second, independent scanner state here. -/
def strOutput (self : ScannerState) (d : ScannerState) : String :=
  if self.duplicates.isEmpty then
    "No duplicates found in " ++ self.path ++ "."
  else
    String.intercalate "\n"
      (("Found duplicates in " ++ self.path ++ ".\n") ::
        d.duplicates.map (fun p =>
          "hash: " ++ p.1 ++ "\n" ++
          "size: " ++ toString (firstSize p.2) ++ " bytes\n" ++
          "files: " ++ String.intercalate ", " (p.2.map DirEntry.name) ++ "\n" ++
          String.mk (List.replicate 80 (Char.ofNat 45))))

/-- Modelled from the spec: the reporting step is to format, for each
duplicate set of *the given scanner's own result*, its digest, the shared
size, the comma-joined member names, and a separator line — i.e. the
`__str__` loop with `self.duplicates` where the source reads the global
`d.duplicates`. -/
def strOutputSelf (self : ScannerState) : String :=
  if self.duplicates.isEmpty then
    "No duplicates found in " ++ self.path ++ "."
  else
    String.intercalate "\n"
      (("Found duplicates in " ++ self.path ++ ".\n") ::
        self.duplicates.map (fun p =>
          "hash: " ++ p.1 ++ "\n" ++
          "size: " ++ toString (firstSize p.2) ++ " bytes\n" ++
          "files: " ++ String.intercalate ", " (p.2.map DirEntry.name) ++ "\n" ++
          String.mk (List.replicate 80 (Char.ofNat 45))))

/-- The test scenario: `a.txt` and `b.txt` both contain "hello",
`c.txt` contains "world", `d.txt` a longer distinct content. -/
def aTxt : DirEntry := ⟨"a.txt", true, false, [104, 101, 108, 108, 111]⟩

/-- Second file with content "hello". -/
def bTxt : DirEntry := ⟨"b.txt", true, false, [104, 101, 108, 108, 111]⟩

/-- File with content "world": same size as `a.txt`, different bytes. -/
def cTxt : DirEntry := ⟨"c.txt", true, false, [119, 111, 114, 108, 100]⟩

/-- File with 18-byte content "different content" plus newline: its size
is unique in the directory. -/
def dTxt : DirEntry := ⟨"d.txt", true, false,
  [100, 105, 102, 102, 101, 114, 101, 110, 116, 32, 99, 111, 110, 116, 101, 110, 116, 10]⟩

/-- The four-file directory of the scenario. -/
def sampleDir : List DirEntry := [aTxt, bTxt, cTxt, dTxt]

/-- First value stored under a key of an association list (the dict
lookup; keys are unique in every dict the scanner builds). -/
def lookupB [DecidableEq κ] (d : List (κ × List α)) (k : κ) : Option (List α) :=
  match d with
  | [] => none
  | (k2, v) :: rest => if k2 = k then some v else lookupB rest k

/-- The keys of an association list, in order. -/
def keysOf (d : List (κ × List α)) : List κ := d.map Prod.fst

/-- Hashing a zero-byte file succeeds and is the digest of the empty
stream, for every zero-byte file of the scan. -/
def zeroHashOk (listing : List DirEntry) : Prop :=
  ∀ e ∈ scan_for_files listing, e.content = [] → get_hash e = hexdigest (blake2s [])

/-- Some single duplicate set of the final result contains every
zero-byte file of the scan. -/
def zeroesTogether (listing : List DirEntry) : Prop :=
  ∃ p ∈ duplicates listing, ∀ e ∈ scan_for_files listing, e.content = [] → e ∈ p.2

/-- Two zero-byte files and one one-byte file, for the zero-byte
scenario. -/
def z1 : DirEntry := ⟨"z1", true, false, []⟩

/-- Second zero-byte file. -/
def z2 : DirEntry := ⟨"z2", true, false, []⟩

/-- Directory with two zero-byte files and a nonempty file. -/
def zDir : List DirEntry := [z1, z2, ⟨"w", true, false, [5]⟩]

/-- A duplicate pair used to populate a scanner state. -/
def e1 : DirEntry := ⟨"x1.txt", true, false, [1, 2]⟩

/-- Second member of that pair. -/
def e2 : DirEntry := ⟨"x2.txt", true, false, [1, 2]⟩

/-- A different duplicate pair for the other scanner state. -/
def e3 : DirEntry := ⟨"y1.txt", true, false, [9]⟩

/-- Second member of the different pair. -/
def e4 : DirEntry := ⟨"y2.txt", true, false, [9]⟩

/-- A scanner instance whose own result holds the `x` pair. -/
def selfState : ScannerState := ⟨"/data/self", [("aa11", [e1, e2])]⟩

/-- The module-global scanner `d`, holding the `y` pair. -/
def globalState : ScannerState := ⟨"/data/global", [("bb22", [e3, e4])]⟩

/-! Association-list lemmas: the dict built by the grouping loops maps
each key to the sublist of entries with that key, keys are unique, and
keys appear in first-occurrence order. -/

lemma lookupB_addToBucket_self [DecidableEq κ] (d : List (κ × List α)) (k : κ) (e : α) :
    lookupB (addToBucket d k e) k = some ((lookupB d k).getD [] ++ [e]) := by
  induction d with
  | nil => simp [addToBucket, lookupB]
  | cons p rest ih =>
    obtain ⟨k2, v⟩ := p
    by_cases h : k2 = k
    · subst h
      simp [addToBucket, lookupB]
    · simp [addToBucket, lookupB, h, ih]

@[simp] lemma keysOf_nil : keysOf ([] : List (κ × List α)) = [] := rfl

@[simp] lemma keysOf_cons (p : κ × List α) (d : List (κ × List α)) :
    keysOf (p :: d) = p.1 :: keysOf d := rfl

lemma lookupB_addToBucket_ne [DecidableEq κ] (d : List (κ × List α)) (k k2 : κ) (e : α)
    (h : k2 ≠ k) : lookupB (addToBucket d k e) k2 = lookupB d k2 := by
  induction d with
  | nil => simp [addToBucket, lookupB, Ne.symm h]
  | cons p rest ih =>
    obtain ⟨k3, v⟩ := p
    by_cases h3 : k3 = k
    · subst h3
      simp [addToBucket, lookupB, Ne.symm h]
    · by_cases h2 : k3 = k2 <;> simp [addToBucket, lookupB, h3, h2, h, ih]

lemma keysOf_addToBucket_mem [DecidableEq κ] (d : List (κ × List α)) (k : κ) (e : α) :
    k ∈ keysOf d → keysOf (addToBucket d k e) = keysOf d := by
  induction d with
  | nil => intro h; simp at h
  | cons p rest ih =>
    obtain ⟨k2, v⟩ := p
    intro h
    by_cases h2 : k2 = k
    · subst h2
      simp [addToBucket]
    · have hk : k ∈ keysOf rest := by
        rcases List.mem_cons.mp (by simpa using h) with hc | hc
        · exact absurd hc.symm h2
        · exact hc
      simp [addToBucket, h2, ih hk]

lemma keysOf_addToBucket_not_mem [DecidableEq κ] (d : List (κ × List α)) (k : κ) (e : α) :
    k ∉ keysOf d → keysOf (addToBucket d k e) = keysOf d ++ [k] := by
  induction d with
  | nil => intro h; simp [addToBucket]
  | cons p rest ih =>
    obtain ⟨k2, v⟩ := p
    intro h
    have h2 : k2 ≠ k := by
      intro hc
      exact h (by simp [hc])
    have hk : k ∉ keysOf rest := by
      intro hc
      exact h (by simp [hc])
    simp [addToBucket, h2, ih hk]

lemma nodup_keysOf_addToBucket [DecidableEq κ] (d : List (κ × List α)) (k : κ) (e : α)
    (hd : (keysOf d).Nodup) : (keysOf (addToBucket d k e)).Nodup := by
  by_cases h : k ∈ keysOf d
  · rw [keysOf_addToBucket_mem d k e h]
    exact hd
  · rw [keysOf_addToBucket_not_mem d k e h]
    rw [List.nodup_append]
    refine ⟨hd, List.nodup_singleton k, ?_⟩
    intro a ha hb
    rw [List.mem_singleton] at hb
    exact h (hb ▸ ha)

lemma lookupB_groupStep_getD [DecidableEq κ] (key : α → κ) (l : List α) :
    ∀ (acc : List (κ × List α)) (k : κ),
      (lookupB (l.foldl (fun acc e => addToBucket acc (key e) e) acc) k).getD [] =
        (lookupB acc k).getD [] ++ l.filter (fun e => key e = k) := by
  induction l with
  | nil => intro acc k; simp
  | cons x xs ih =>
    intro acc k
    simp only [List.foldl_cons]
    rw [ih]
    by_cases h : key x = k
    · rw [List.filter_cons_of_pos (by simp [h])]
      rw [h, lookupB_addToBucket_self]
      simp
    · rw [List.filter_cons_of_neg (by simp [h])]
      rw [lookupB_addToBucket_ne _ _ _ _ (fun hc => h hc.symm)]

lemma isSome_lookupB_groupStep [DecidableEq κ] (key : α → κ) (l : List α) :
    ∀ (acc : List (κ × List α)) (k : κ),
      (lookupB (l.foldl (fun acc e => addToBucket acc (key e) e) acc) k).isSome =
        ((lookupB acc k).isSome || l.any (fun e => key e = k)) := by
  induction l with
  | nil => intro acc k; simp
  | cons x xs ih =>
    intro acc k
    simp only [List.foldl_cons]
    rw [ih]
    by_cases h : key x = k
    · rw [h, lookupB_addToBucket_self]
      simp [h]
    · rw [lookupB_addToBucket_ne _ _ _ _ (fun hc => h hc.symm)]
      simp [h]

lemma nodup_keysOf_groupStep [DecidableEq κ] (key : α → κ) (l : List α) :
    ∀ (acc : List (κ × List α)), (keysOf acc).Nodup →
      (keysOf (l.foldl (fun acc e => addToBucket acc (key e) e) acc)).Nodup := by
  induction l with
  | nil => intro acc h; simpa using h
  | cons x xs ih =>
    intro acc h
    simp only [List.foldl_cons]
    exact ih _ (nodup_keysOf_addToBucket _ _ _ h)

lemma lookupB_groupByKey_getD [DecidableEq κ] (key : α → κ) (l : List α) (k : κ) :
    (lookupB (groupByKey key l) k).getD [] = l.filter (fun e => key e = k) := by
  unfold groupByKey
  rw [lookupB_groupStep_getD]
  simp [lookupB]

lemma isSome_lookupB_groupByKey [DecidableEq κ] (key : α → κ) (l : List α) (k : κ) :
    (lookupB (groupByKey key l) k).isSome = l.any (fun e => key e = k) := by
  unfold groupByKey
  rw [isSome_lookupB_groupStep]
  simp [lookupB]

lemma nodup_keysOf_groupByKey [DecidableEq κ] (key : α → κ) (l : List α) :
    (keysOf (groupByKey key l)).Nodup := by
  unfold groupByKey
  exact nodup_keysOf_groupStep key l [] (by simp [keysOf])

lemma mem_of_lookupB_eq_some [DecidableEq κ] (d : List (κ × List α)) (k : κ) (v : List α)
    (h : lookupB d k = some v) : (k, v) ∈ d := by
  induction d with
  | nil => simp [lookupB] at h
  | cons p rest ih =>
    obtain ⟨k2, v2⟩ := p
    by_cases h2 : k2 = k
    · subst h2
      simp [lookupB] at h
      simp [h]
    · simp [lookupB, h2] at h
      simp [ih h]

lemma lookupB_eq_some_of_mem [DecidableEq κ] (d : List (κ × List α)) (k : κ) (v : List α)
    (hnd : (keysOf d).Nodup) (hm : (k, v) ∈ d) : lookupB d k = some v := by
  induction d with
  | nil => simp at hm
  | cons p rest ih =>
    obtain ⟨k2, v2⟩ := p
    rw [keysOf_cons, List.nodup_cons] at hnd
    rcases List.mem_cons.mp hm with heq | htail
    · injection heq with h1 h2
      subst h1
      subst h2
      simp [lookupB]
    · have hk : k ∈ keysOf rest := List.mem_map_of_mem Prod.fst htail
      have h2 : k2 ≠ k := by
        intro hc
        exact hnd.1 (hc ▸ hk)
      simp [lookupB, h2]
      exact ih hnd.2 htail

lemma mem_groupByKey_iff [DecidableEq κ] (key : α → κ) (l : List α) (k : κ) (v : List α) :
    (k, v) ∈ groupByKey key l ↔
      l.any (fun e => key e = k) = true ∧ v = l.filter (fun e => key e = k) := by
  constructor
  · intro hm
    have hl := lookupB_eq_some_of_mem _ _ _ (nodup_keysOf_groupByKey key l) hm
    have h1 := isSome_lookupB_groupByKey key l k
    have h2 := lookupB_groupByKey_getD key l k
    rw [hl, Option.isSome_some] at h1
    rw [hl, Option.getD_some] at h2
    exact ⟨h1.symm, h2⟩
  · rintro ⟨hany, rfl⟩
    have h1 := isSome_lookupB_groupByKey key l k
    rw [hany] at h1
    obtain ⟨v2, hv2⟩ := Option.isSome_iff_exists.mp h1
    have h2 := lookupB_groupByKey_getD key l k
    rw [hv2, Option.getD_some] at h2
    rw [← h2]
    exact mem_of_lookupB_eq_some _ _ _ hv2

/-! Counting through the buckets, and the shape of the composed
pipeline. -/

lemma count_filter_key [DecidableEq κ] [DecidableEq α] (key : α → κ) (l : List α) (e : α)
    (k : κ) :
    (l.filter (fun x => key x = k)).count e = if key e = k then l.count e else 0 := by
  by_cases h : key e = k
  · rw [if_pos h]
    exact List.count_filter (by simp [h])
  · rw [if_neg h]
    rw [List.count_eq_zero]
    intro hmem
    rw [List.mem_filter] at hmem
    exact h (by simpa using hmem.2)

lemma sum_bucket_counts [DecidableEq κ] [DecidableEq α] (key : α → κ) (l : List α) (e : α) :
    ∀ (D : List (κ × List α)),
      (∀ p ∈ D, p.2 = l.filter (fun x => key x = p.1)) →
      (keysOf D).Nodup →
      (D.map (fun p => p.2.count e)).sum = if key e ∈ keysOf D then l.count e else 0 := by
  intro D
  induction D with
  | nil => intro _ _; simp
  | cons p rest ih =>
    intro hp hnd
    obtain ⟨k, v⟩ := p
    rw [keysOf_cons, List.nodup_cons] at hnd
    have hv : v = l.filter (fun x => key x = k) := hp _ (List.mem_cons_self _ _)
    simp only [List.map_cons, List.sum_cons]
    rw [hv, count_filter_key, ih (fun q hq => hp q (List.mem_cons_of_mem _ hq)) hnd.2]
    by_cases h : key e = k
    · subst h
      simp [hnd.1]
    · simp [h, Ne.symm h, List.mem_cons]

lemma keysOf_remove_unique_sublist [DecidableEq κ] (d : List (κ × List α)) :
    (keysOf (remove_unique d)).Sublist (keysOf d) :=
  (List.filter_sublist d).map Prod.fst

lemma mem_remove_unique_iff [DecidableEq κ] (d : List (κ × List α)) (p : κ × List α) :
    p ∈ remove_unique d ↔ p ∈ d ∧ 1 < p.2.length := by
  unfold remove_unique
  rw [List.mem_filter]
  simp

lemma mem_find_duplicates_size_iff (fl : List DirEntry) (k : Nat) (v : List DirEntry) :
    (k, v) ∈ find_duplicates_size fl ↔
      1 < (fl.filter (fun x => x.st_size = k)).length ∧
      v = fl.filter (fun x => x.st_size = k) := by
  unfold find_duplicates_size
  rw [mem_remove_unique_iff, mem_groupByKey_iff]
  constructor
  · rintro ⟨⟨hany, rfl⟩, hlen⟩
    exact ⟨hlen, rfl⟩
  · rintro ⟨hlen, rfl⟩
    refine ⟨⟨?_, rfl⟩, hlen⟩
    have hne : fl.filter (fun x => x.st_size = k) ≠ [] := by
      intro hc
      rw [hc] at hlen
      simp at hlen
    obtain ⟨x, hx⟩ := List.exists_mem_of_ne_nil _ hne
    rw [List.mem_filter] at hx
    rw [List.any_eq_true]
    exact ⟨x, hx.1, hx.2⟩

lemma find_duplicates_hash_eq (ds : List (Nat × List DirEntry)) :
    find_duplicates_hash ds =
      remove_unique (groupByKey get_hash ((ds.map Prod.snd).flatten)) := by
  unfold find_duplicates_hash groupByKey
  rw [List.foldl_flatten, List.foldl_map]

lemma duplicates_eq (listing : List DirEntry) :
    duplicates listing = remove_unique (groupByKey get_hash (hashInvocations listing)) := by
  unfold duplicates hashInvocations
  exact find_duplicates_hash_eq _

lemma mem_duplicates_iff (listing : List DirEntry) (k : String) (v : List DirEntry) :
    (k, v) ∈ duplicates listing ↔
      1 < ((hashInvocations listing).filter (fun x => get_hash x = k)).length ∧
      v = (hashInvocations listing).filter (fun x => get_hash x = k) := by
  rw [duplicates_eq, mem_remove_unique_iff, mem_groupByKey_iff]
  constructor
  · rintro ⟨⟨hany, rfl⟩, hlen⟩
    exact ⟨hlen, rfl⟩
  · rintro ⟨hlen, rfl⟩
    refine ⟨⟨?_, rfl⟩, hlen⟩
    have hne : (hashInvocations listing).filter (fun x => get_hash x = k) ≠ [] := by
      intro hc
      rw [hc] at hlen
      simp at hlen
    obtain ⟨x, hx⟩ := List.exists_mem_of_ne_nil _ hne
    rw [List.mem_filter] at hx
    rw [List.any_eq_true]
    exact ⟨x, hx.1, hx.2⟩

lemma mem_keysOf_iff [DecidableEq κ] (d : List (κ × List α)) (k : κ) :
    k ∈ keysOf d ↔ ∃ v, (k, v) ∈ d := by
  unfold keysOf
  rw [List.mem_map]
  constructor
  · rintro ⟨⟨k2, v⟩, hm, rfl⟩
    exact ⟨v, hm⟩
  · rintro ⟨v, hm⟩
    exact ⟨(k, v), hm, rfl⟩

lemma mem_scan_of_mem_hashInvocations (listing : List DirEntry) (e : DirEntry)
    (h : e ∈ hashInvocations listing) : e ∈ scan_for_files listing := by
  unfold hashInvocations at h
  rw [List.mem_flatten] at h
  obtain ⟨v, hv, he⟩ := h
  rw [List.mem_map] at hv
  obtain ⟨⟨k, w⟩, hp, rfl⟩ := hv
  rw [mem_find_duplicates_size_iff] at hp
  rw [hp.2] at he
  exact (List.mem_filter.mp he).1

/-- Core counting fact: an entry is passed to `get_hash` exactly once
when its size is shared by at least two scanned files, and never
otherwise. -/
lemma count_hashInvocations (listing : List DirEntry)
    (hnd : (scan_for_files listing).Nodup) (e : DirEntry) :
    (hashInvocations listing).count e =
      if e ∈ scan_for_files listing ∧
          1 < ((scan_for_files listing).filter (fun x => x.st_size = e.st_size)).length
      then 1 else 0 := by
  unfold hashInvocations
  rw [List.count_flatten, List.map_map]
  have hsum := sum_bucket_counts DirEntry.st_size (scan_for_files listing) e
    (find_duplicates_size (scan_for_files listing))
    (fun p hp => by
      obtain ⟨k, v⟩ := p
      exact (mem_find_duplicates_size_iff _ _ _ |>.mp hp).2)
    (List.Nodup.sublist (keysOf_remove_unique_sublist _)
      (nodup_keysOf_groupByKey DirEntry.st_size (scan_for_files listing)))
  rw [show ((find_duplicates_size (scan_for_files listing)).map
      (List.count e ∘ Prod.snd)) = ((find_duplicates_size (scan_for_files listing)).map
      (fun p => p.2.count e)) from rfl]
  rw [hsum]
  have hkey : e.st_size ∈ keysOf (find_duplicates_size (scan_for_files listing)) ↔
      1 < ((scan_for_files listing).filter (fun x => x.st_size = e.st_size)).length := by
    rw [mem_keysOf_iff]
    constructor
    · rintro ⟨v, hv⟩
      exact (mem_find_duplicates_size_iff _ _ _ |>.mp hv).1
    · intro hlen
      exact ⟨_, (mem_find_duplicates_size_iff _ _ _).mpr ⟨hlen, rfl⟩⟩
  by_cases hmem : e ∈ scan_for_files listing
  · by_cases hlen : 1 < ((scan_for_files listing).filter
        (fun x => x.st_size = e.st_size)).length
    · rw [if_pos (hkey.mpr hlen), if_pos ⟨hmem, hlen⟩]
      exact List.count_eq_one_of_mem hnd hmem
    · rw [if_neg (fun hc => hlen (hkey.mp hc)), if_neg (fun hc => hlen hc.2)]
  · by_cases hlen : 1 < ((scan_for_files listing).filter
        (fun x => x.st_size = e.st_size)).length
    · rw [if_pos (hkey.mpr hlen), if_neg (fun hc => hmem hc.1)]
      exact List.count_eq_zero.mpr hmem
    · rw [if_neg (fun hc => hlen (hkey.mp hc)), if_neg (fun hc => hlen hc.2)]

/-- C1: the hashing stage is invoked exactly once for each enumerated
file whose size bucket has at least two members, and for no other file:
the multiplicity of any entry in `hashInvocations` (the instrumented
sequence of `get_hash` calls) is 1 exactly when the entry is scanned and
shares its size with a second scanned file, and 0 otherwise — in
particular a file with a unique size is never hashed.  Distinct directory
entries bear distinct names. -/
theorem hash_iff_shared_size (listing : List DirEntry)
    (hnames : ((scan_for_files listing).map DirEntry.name).Nodup) (e : DirEntry) :
    (hashInvocations listing).count e =
      if e ∈ scan_for_files listing ∧
          2 ≤ ((scan_for_files listing).filter (fun x => x.st_size = e.st_size)).length
      then 1 else 0 :=
  count_hashInvocations listing (List.Nodup.of_map _ hnames) e

/-- Witness: in the scenario directory, `a.txt` is hashed exactly once
and the unique-size `d.txt` is never hashed. -/
theorem hash_iff_shared_size_witness :
    (hashInvocations sampleDir).count aTxt = 1 ∧
    (hashInvocations sampleDir).count dTxt = 0 :=
  ⟨(hash_iff_shared_size sampleDir (by decide) aTxt).trans (by decide),
   (hash_iff_shared_size sampleDir (by decide) dTxt).trans (by decide)⟩

/-- C3: every member sequence of the final result has length at least 2,
and every entry occurring anywhere in the final result occurs in exactly
one sequence and exactly once there — its total multiplicity over all
duplicate sets (`resultCount`) is 1. -/
theorem result_is_partition (listing : List DirEntry)
    (hnames : ((scan_for_files listing).map DirEntry.name).Nodup) :
    (∀ p ∈ duplicates listing, 2 ≤ p.2.length) ∧
    (∀ e : DirEntry, (∃ p ∈ duplicates listing, e ∈ p.2) → resultCount e listing = 1) := by
  have hnd : (scan_for_files listing).Nodup := List.Nodup.of_map _ hnames
  constructor
  · intro p hp
    obtain ⟨k, v⟩ := p
    have h := (mem_duplicates_iff listing k v).mp hp
    rw [h.2]
    exact h.1
  · rintro e ⟨p, hp, he⟩
    unfold resultCount
    have hsum := sum_bucket_counts get_hash (hashInvocations listing) e (duplicates listing)
      (fun q hq => by
        obtain ⟨k, v⟩ := q
        exact (mem_duplicates_iff listing k v |>.mp hq).2)
      (by
        rw [duplicates_eq]
        exact List.Nodup.sublist (keysOf_remove_unique_sublist _)
          (nodup_keysOf_groupByKey get_hash (hashInvocations listing)))
    rw [hsum]
    obtain ⟨k, v⟩ := p
    have hpv := (mem_duplicates_iff listing k v).mp hp
    rw [hpv.2] at he
    have hhash : get_hash e = k := by simpa using (List.mem_filter.mp he).2
    have heH : e ∈ hashInvocations listing := (List.mem_filter.mp he).1
    have hkey : get_hash e ∈ keysOf (duplicates listing) := by
      rw [hhash, mem_keysOf_iff]
      exact ⟨v, hp⟩
    rw [if_pos hkey]
    have hcount := count_hashInvocations listing hnd e
    by_cases hc : e ∈ scan_for_files listing ∧
        1 < ((scan_for_files listing).filter (fun x => x.st_size = e.st_size)).length
    · rw [if_pos hc] at hcount
      exact hcount
    · rw [if_neg hc] at hcount
      have hpos : 0 < (hashInvocations listing).count e := List.count_pos_iff.mpr heH
      rw [hcount] at hpos
      exact absurd hpos (by simp)

set_option maxRecDepth 1000000 in
/-- Witness: in the scenario directory `a.txt` occurs in the result with
total multiplicity exactly 1. -/
theorem result_is_partition_witness : resultCount aTxt sampleDir = 1 :=
  (result_is_partition sampleDir (by decide)).2 aTxt
    ⟨("19213bacc58dee6dbde3ceb9a47cbb330b3d86f8cca8997eb00be456f140ca25", [aTxt, bTxt]),
     by decide, by decide⟩

/-- C4: under the spec's standing assumption that no two files of
differing content share a digest (stated here for the scanned files),
all entries of any one duplicate set have identical full-content bytes
and hence identical size. -/
theorem duplicate_sets_share_content (listing : List DirEntry)
    (hcf : ∀ x ∈ scan_for_files listing, ∀ y ∈ scan_for_files listing,
      get_hash x = get_hash y → x.content = y.content) :
    ∀ p ∈ duplicates listing, ∀ x ∈ p.2, ∀ y ∈ p.2,
      x.content = y.content ∧ x.st_size = y.st_size := by
  intro p hp x hx y hy
  obtain ⟨k, v⟩ := p
  have hpv := (mem_duplicates_iff listing k v).mp hp
  rw [hpv.2] at hx hy
  have hxf := List.mem_filter.mp hx
  have hyf := List.mem_filter.mp hy
  have hxs := mem_scan_of_mem_hashInvocations listing x hxf.1
  have hys := mem_scan_of_mem_hashInvocations listing y hyf.1
  have hxy : get_hash x = get_hash y := by
    have h1 : get_hash x = k := by simpa using hxf.2
    have h2 : get_hash y = k := by simpa using hyf.2
    rw [h1, h2]
  have hc := hcf x hxs y hys hxy
  refine ⟨hc, ?_⟩
  unfold DirEntry.st_size
  rw [hc]

set_option maxRecDepth 1000000 in
/-- Witness: in the scenario directory the two members of the single
duplicate set carry the same bytes and size. -/
theorem duplicate_sets_share_content_witness :
    aTxt.content = bTxt.content ∧ aTxt.st_size = bTxt.st_size :=
  duplicate_sets_share_content sampleDir (by decide)
    ("19213bacc58dee6dbde3ceb9a47cbb330b3d86f8cca8997eb00be456f140ca25", [aTxt, bTxt])
    (by decide) aTxt (by decide) bTxt (by decide)

/-- Filtering the concatenated size buckets by a predicate that forces
one single size keeps at most the contribution of that size's bucket. -/
lemma filter_flatten_buckets (l : List DirEntry) (q : DirEntry → Bool) (s : Nat) :
    ∀ (D : List (Nat × List DirEntry)),
      (∀ p ∈ D, p.2 = l.filter (fun x => x.st_size = p.1)) →
      (keysOf D).Nodup →
      (∀ x ∈ l, q x = true → x.st_size = s) →
      ((D.map Prod.snd).flatten).filter q =
        if s ∈ keysOf D then (l.filter (fun x => x.st_size = s)).filter q else [] := by
  intro D
  induction D with
  | nil => intro _ _ _; simp
  | cons p rest ih =>
    intro hp hnd hq
    obtain ⟨k, v⟩ := p
    rw [keysOf_cons, List.nodup_cons] at hnd
    have hv : v = l.filter (fun x => x.st_size = k) := hp _ (List.mem_cons_self _ _)
    simp only [List.map_cons, List.flatten_cons, List.filter_append, keysOf_cons]
    rw [ih (fun p2 hp2 => hp p2 (List.mem_cons_of_mem _ hp2)) hnd.2 hq]
    by_cases hk : k = s
    · subst hk
      rw [if_neg hnd.1, if_pos (List.mem_cons_self _ _)]
      rw [hv]
      simp
    · have hvq : v.filter q = [] := by
        rw [List.filter_eq_nil_iff]
        intro x hx hqx
        rw [hv, List.mem_filter] at hx
        have h1 : x.st_size = k := by simpa using hx.2
        exact hk (h1.symm.trans (hq x hx.1 hqx))
      rw [hvq]
      by_cases hs : s ∈ keysOf rest
      · rw [if_pos hs, if_pos (List.mem_cons_of_mem _ hs)]
        simp
      · rw [if_neg hs, if_neg ?_]
        · simp
        · rw [List.mem_cons]
          rintro (hc | hc)
          · exact hk hc.symm
          · exact hs hc

/-- C5: under the spec's standing collision-freedom assumption, each
duplicate set of the final result lists its entries in the relative
order of the original enumeration: it is a sublist both of the scanned
file list and of the raw directory listing. -/
theorem duplicate_sets_preserve_order (listing : List DirEntry)
    (hcf : ∀ x ∈ scan_for_files listing, ∀ y ∈ scan_for_files listing,
      get_hash x = get_hash y → x.content = y.content) :
    ∀ p ∈ duplicates listing,
      p.2.Sublist (scan_for_files listing) ∧ p.2.Sublist listing := by
  intro p hp
  obtain ⟨k, v⟩ := p
  have hpv := (mem_duplicates_iff listing k v).mp hp
  have hlen : 1 < v.length := by
    rw [hpv.2]
    exact hpv.1
  obtain ⟨e0, he0⟩ := List.exists_mem_of_ne_nil v (by
    intro hc
    rw [hc] at hlen
    simp at hlen)
  have he0f : e0 ∈ (hashInvocations listing).filter (fun x => get_hash x = k) :=
    hpv.2 ▸ he0
  have he0H := (List.mem_filter.mp he0f).1
  have he0k : get_hash e0 = k := by simpa using (List.mem_filter.mp he0f).2
  have he0s := mem_scan_of_mem_hashInvocations listing e0 he0H
  have hq : ∀ x ∈ scan_for_files listing,
      decide (get_hash x = k) = true → x.st_size = e0.st_size := by
    intro x hx hqx
    have hqk : get_hash x = k := of_decide_eq_true hqx
    have hcx := hcf x hx e0 he0s (by rw [hqk, he0k])
    unfold DirEntry.st_size
    rw [hcx]
  have hff := filter_flatten_buckets (scan_for_files listing)
    (fun x => decide (get_hash x = k)) e0.st_size
    (find_duplicates_size (scan_for_files listing))
    (fun p2 hp2 => by
      obtain ⟨k2, v2⟩ := p2
      exact (mem_find_duplicates_size_iff _ _ _ |>.mp hp2).2)
    (List.Nodup.sublist (keysOf_remove_unique_sublist _)
      (nodup_keysOf_groupByKey DirEntry.st_size (scan_for_files listing)))
    hq
  have hsub1 : v.Sublist (scan_for_files listing) := by
    rw [hpv.2, show hashInvocations listing =
      ((find_duplicates_size (scan_for_files listing)).map Prod.snd).flatten from rfl, hff]
    by_cases hs : e0.st_size ∈ keysOf (find_duplicates_size (scan_for_files listing))
    · rw [if_pos hs]
      exact (List.filter_sublist _).trans (List.filter_sublist _)
    · rw [if_neg hs]
      exact List.nil_sublist _
  exact ⟨hsub1, hsub1.trans (List.filter_sublist listing)⟩

set_option maxRecDepth 1000000 in
/-- Witness: the single duplicate set of the scenario is a sublist of
both the scanned file list and the raw listing. -/
theorem duplicate_sets_preserve_order_witness :
    List.Sublist [aTxt, bTxt] (scan_for_files sampleDir) ∧
    List.Sublist [aTxt, bTxt] sampleDir :=
  duplicate_sets_preserve_order sampleDir (by decide)
    ("19213bacc58dee6dbde3ceb9a47cbb330b3d86f8cca8997eb00be456f140ca25", [aTxt, bTxt])
    (by decide)

/-! Lemmas about the fallible pipeline. -/

lemma exOk_false_iff (x : Except ScanError α) : exOk x = false ↔ ∃ err, x = .error err := by
  cases x <;> simp [exOk]

lemma remove_unique_groupByKey_eq_nil [DecidableEq κ] (key : α → κ) (l : List α)
    (hp : l.Pairwise (fun a b => key a ≠ key b)) :
    remove_unique (groupByKey key l) = [] := by
  unfold remove_unique
  rw [List.filter_eq_nil_iff]
  rintro ⟨k, v⟩ hm
  have hv := (mem_groupByKey_iff key l k v).mp hm
  simp only [decide_eq_true_eq]
  intro hlen
  have hpf : (l.filter (fun e => key e = k)).Pairwise (fun a b => key a ≠ key b) :=
    hp.filter _
  rw [← hv.2] at hpf
  match v, hpf, hlen, hv.2 with
  | a :: b :: t, hpf, hlen, hfil =>
    have hab : key a ≠ key b :=
      (List.pairwise_cons.mp hpf).1 b (List.mem_cons_self _ _)
    have ha : key a = k := by
      have hma : a ∈ l.filter (fun e => key e = k) := by
        rw [← hfil]
        exact List.mem_cons_self _ _
      simpa using (List.mem_filter.mp hma).2
    have hb : key b = k := by
      have hmb : b ∈ l.filter (fun e => key e = k) := by
        rw [← hfil]
        exact List.mem_cons_of_mem _ (List.mem_cons_self _ _)
      simpa using (List.mem_filter.mp hmb).2
    exact hab (ha.trans hb.symm)

lemma foldSizeE_ok (fl : List FSEntry) :
    ∀ acc : List (Nat × List FSEntry), (∀ e ∈ fl, exOk e.statRes = true) →
      (fl.foldlM (fun acc e => do
          let size ← e.statRes
          pure (addToBucket acc size e)) acc : Except ScanError (List (Nat × List FSEntry))) =
        .ok (fl.foldl (fun acc e => addToBucket acc (statVal e) e) acc) := by
  induction fl with
  | nil => intro acc _; rfl
  | cons x xs ih =>
    intro acc h
    have hx := h x (List.mem_cons_self _ _)
    cases hsx : x.statRes with
    | error err =>
      rw [hsx] at hx
      simp [exOk] at hx
    | ok n =>
      have hstat : statVal x = n := by
        unfold statVal
        rw [hsx]
      rw [List.foldlM_cons, List.foldl_cons, hstat]
      simp only [hsx]
      exact ih (addToBucket acc n x) (fun e he => h e (List.mem_cons_of_mem _ he))

lemma foldSizeE_error (fl : List FSEntry) :
    ∀ acc : List (Nat × List FSEntry), (∃ e ∈ fl, exOk e.statRes = false) →
      exOk (fl.foldlM (fun acc e => do
          let size ← e.statRes
          pure (addToBucket acc size e)) acc : Except ScanError (List (Nat × List FSEntry))) =
        false := by
  induction fl with
  | nil =>
    rintro acc ⟨e, he, _⟩
    simp at he
  | cons x xs ih =>
    rintro acc ⟨e, he, hef⟩
    cases hsx : x.statRes with
    | error err =>
      simp only [List.foldlM_cons, hsx]
      rfl
    | ok n =>
      simp only [List.foldlM_cons, hsx]
      rcases List.mem_cons.mp he with rfl | hmem
      · rw [hsx] at hef
        simp [exOk] at hef
      · exact ih (addToBucket acc n x) ⟨e, hmem, hef⟩

lemma find_duplicates_sizeE_ok (fl : List FSEntry)
    (h : ∀ e ∈ fl, exOk e.statRes = true) :
    find_duplicates_sizeE fl = .ok (remove_unique (groupByKey statVal fl)) := by
  unfold find_duplicates_sizeE groupByKey
  rw [foldSizeE_ok fl [] h]
  rfl

lemma foldHashInnerE_error (l : List FSEntry) :
    ∀ acc : List (String × List FSEntry), (∃ e ∈ l, exOk e.readRes = false) →
      exOk (l.foldlM (fun acc2 e => do
          let h ← get_hashE e
          pure (addToBucket acc2 h e)) acc : Except ScanError (List (String × List FSEntry))) =
        false := by
  induction l with
  | nil =>
    rintro acc ⟨e, he, _⟩
    simp at he
  | cons x xs ih =>
    rintro acc ⟨e, he, hef⟩
    cases hrx : x.readRes with
    | error err =>
      have hgx : get_hashE x = .error err := by
        unfold get_hashE
        rw [hrx]
        rfl
      simp only [List.foldlM_cons, hgx]
      rfl
    | ok content =>
      have hgx : get_hashE x =
          .ok (hexdigest (blake2s ((readChunks content).foldl (fun acc b => acc ++ b) []))) := by
        unfold get_hashE
        rw [hrx]
        rfl
      simp only [List.foldlM_cons, hgx]
      rcases List.mem_cons.mp he with rfl | hmem
      · rw [hrx] at hef
        simp [exOk] at hef
      · exact ih _ ⟨e, hmem, hef⟩

lemma foldHashOuterE_error (ds : List (Nat × List FSEntry)) :
    ∀ acc : List (String × List FSEntry),
      (∃ p ∈ ds, ∃ e ∈ p.2, exOk e.readRes = false) →
      exOk (ds.foldlM (fun acc p => p.2.foldlM (fun acc2 e => do
          let h ← get_hashE e
          pure (addToBucket acc2 h e)) acc) acc :
        Except ScanError (List (String × List FSEntry))) = false := by
  induction ds with
  | nil =>
    rintro acc ⟨p, hp, _⟩
    simp at hp
  | cons p rest ih =>
    rintro acc ⟨q, hq, e, he, hef⟩
    cases hres : (p.2.foldlM (fun acc2 e => do
        let h ← get_hashE e
        pure (addToBucket acc2 h e)) acc : Except ScanError (List (String × List FSEntry))) with
    | error err =>
      simp only [List.foldlM_cons, hres]
      rfl
    | ok acc2 =>
      simp only [List.foldlM_cons, hres]
      rcases List.mem_cons.mp hq with rfl | hmem
      · have := foldHashInnerE_error q.2 acc ⟨e, he, hef⟩
        rw [hres] at this
        simp [exOk] at this
      · exact ih acc2 ⟨q, hmem, e, he, hef⟩

/-- C6: an empty directory, or one in which all scanned files have
pairwise-distinct sizes, yields an empty result, zero hash invocations,
and — in the fallible model — a successful scan even when every attempt
to open a file for reading would fail, i.e. no file is ever opened. -/
theorem empty_when_sizes_unique :
    (∀ listing : List DirEntry,
      (scan_for_files listing).Pairwise (fun a b => a.st_size ≠ b.st_size) →
      duplicates listing = [] ∧ hashInvocations listing = []) ∧
    (∀ (fs : FS) (fl : List FSEntry), fs.scandirRes = .ok fl →
      (∀ e ∈ fl.filter (fun e => e.is_file && !e.is_symlink), exOk e.statRes = true) →
      (fl.filter (fun e => e.is_file && !e.is_symlink)).Pairwise
        (fun a b => statVal a ≠ statVal b) →
      scanE fs = .ok []) := by
  constructor
  · intro listing hpw
    have hD : find_duplicates_size (scan_for_files listing) = [] := by
      unfold find_duplicates_size
      exact remove_unique_groupByKey_eq_nil _ _ hpw
    constructor
    · unfold duplicates
      rw [hD]
      rfl
    · unfold hashInvocations
      rw [hD]
      rfl
  · intro fs fl hok hstats hpw
    have hsz := find_duplicates_sizeE_ok _ hstats
    rw [remove_unique_groupByKey_eq_nil _ _ hpw] at hsz
    unfold scanE scan_for_filesE
    rw [hok]
    show (find_duplicates_sizeE (fl.filter (fun e => e.is_file && !e.is_symlink)) >>= fun ds =>
      find_duplicates_hashE ds) = .ok []
    rw [hsz]
    rfl

/-- Witness: a concrete two-file filesystem with distinct sizes, where
both reads would raise `ioError`, still scans to the empty result; and
the empty directory gives the empty result. -/
theorem empty_when_sizes_unique_witness :
    duplicates [] = [] ∧ hashInvocations [] = [] ∧
    scanE ⟨.ok [⟨"u.bin", true, false, .ok 1, .error .ioError⟩,
               ⟨"v.bin", true, false, .ok 2, .error .ioError⟩]⟩ = .ok [] := by
  refine ⟨(empty_when_sizes_unique.1 [] (by decide)).1,
          (empty_when_sizes_unique.1 [] (by decide)).2, ?_⟩
  exact empty_when_sizes_unique.2 _ _ rfl (by decide) (by decide)

/-- C7: every error aborts the scan and surfaces to the caller with no
partial result: an enumeration error is returned as such; a metadata
failure on any scanned entry makes the scan return an error; a
hash-time open/read failure on any file of a surviving size bucket makes
the scan return an error. -/
theorem errors_abort_scan :
    (∀ (fs : FS) (err : ScanError), fs.scandirRes = .error err → scanE fs = .error err) ∧
    (∀ (fs : FS) (fl : List FSEntry), fs.scandirRes = .ok fl →
      (∃ e ∈ fl.filter (fun e => e.is_file && !e.is_symlink), exOk e.statRes = false) →
      exOk (scanE fs) = false) ∧
    (∀ (fs : FS) (fl : List FSEntry), fs.scandirRes = .ok fl →
      (∀ e ∈ fl.filter (fun e => e.is_file && !e.is_symlink), exOk e.statRes = true) →
      (∃ p ∈ remove_unique (groupByKey statVal
          (fl.filter (fun e => e.is_file && !e.is_symlink))),
        ∃ e ∈ p.2, exOk e.readRes = false) →
      exOk (scanE fs) = false) := by
  refine ⟨?_, ?_, ?_⟩
  · intro fs err h
    unfold scanE scan_for_filesE
    rw [h]
    rfl
  · intro fs fl hok hex
    unfold scanE scan_for_filesE
    rw [hok]
    show exOk (find_duplicates_sizeE (fl.filter (fun e => e.is_file && !e.is_symlink)) >>=
      fun ds => find_duplicates_hashE ds) = false
    have hf := foldSizeE_error (fl.filter (fun e => e.is_file && !e.is_symlink)) [] hex
    obtain ⟨err, herr⟩ := (exOk_false_iff _).mp hf
    unfold find_duplicates_sizeE
    rw [herr]
    rfl
  · intro fs fl hok hstats hex
    unfold scanE scan_for_filesE
    rw [hok]
    show exOk (find_duplicates_sizeE (fl.filter (fun e => e.is_file && !e.is_symlink)) >>=
      fun ds => find_duplicates_hashE ds) = false
    rw [find_duplicates_sizeE_ok _ hstats]
    show exOk (find_duplicates_hashE (remove_unique (groupByKey statVal
      (fl.filter (fun e => e.is_file && !e.is_symlink))))) = false
    have hf := foldHashOuterE_error _ [] hex
    obtain ⟨err, herr⟩ := (exOk_false_iff _).mp hf
    unfold find_duplicates_hashE
    rw [herr]
    rfl

/-- Witness: a nonexistent path surfaces `notFound`; a failing `stat`
aborts the scan; a failing hash-time read on two same-size files aborts
the scan. -/
theorem errors_abort_scan_witness :
    scanE ⟨.error .notFound⟩ = .error .notFound ∧
    exOk (scanE ⟨.ok [⟨"m.bin", true, false, .error .metadataUnavailable, .ok []⟩]⟩) = false ∧
    exOk (scanE ⟨.ok [⟨"r.bin", true, false, .ok 3, .error .ioError⟩,
                     ⟨"s.bin", true, false, .ok 3, .ok [7, 7, 7]⟩]⟩) = false :=
  ⟨errors_abort_scan.1 _ .notFound rfl,
   errors_abort_scan.2.1 _ _ rfl (by decide),
   errors_abort_scan.2.2 _ _ rfl (by decide) (by decide)⟩

set_option maxRecDepth 1000000 in
/-- C2: for the scenario directory the result holds exactly one entry,
whose members are exactly `a.txt` and `b.txt`; the hashing stage
processed exactly `a.txt`, `b.txt` and `c.txt` (so `c.txt` is hashed but
forms no set), and `d.txt` is never hashed. -/
theorem scenario_result :
    duplicates sampleDir =
      [("19213bacc58dee6dbde3ceb9a47cbb330b3d86f8cca8997eb00be456f140ca25",
        [aTxt, bTxt])] ∧
    hashInvocations sampleDir = [aTxt, bTxt, cTxt] ∧
    dTxt ∉ hashInvocations sampleDir := by
  refine ⟨by decide, by decide, by decide⟩

/-- C8 (code bug): with a nonempty own result, `__str__` formats the
duplicate sets of the module-global `d`, not those of `self` — the
output for `selfState` printed while `d` is `globalState` differs from
the spec's own-result formatting of `selfState` and instead equals the
own-result formatting of a scanner carrying `globalState`'s sets. -/
theorem str_reads_global_not_self :
    strOutput selfState globalState ≠ strOutputSelf selfState ∧
    strOutput selfState globalState =
      strOutputSelf ⟨selfState.path, globalState.duplicates⟩ := by
  constructor
  · decide
  · decide

/-! Chunked reading feeds exactly the file's bytes to the hasher, and
the digest is a 64-character lowercase hex string. -/

lemma chunksOfAux_flatten (n : Nat) :
    ∀ (fuel : Nat) (l : List α), l.length ≤ fuel → (chunksOfAux fuel n l).flatten = l := by
  intro fuel
  induction fuel with
  | zero =>
    intro l h
    cases l with
    | nil => rfl
    | cons x xs => simp at h
  | succ fuel ih =>
    intro l h
    cases l with
    | nil => rfl
    | cons x xs =>
      show (((x :: xs).take (n + 1)) :: chunksOfAux fuel n ((x :: xs).drop (n + 1))).flatten =
        x :: xs
      rw [List.flatten_cons, ih _ ?_]
      · exact List.take_append_drop (n + 1) (x :: xs)
      · rw [List.length_drop]
        simp at h ⊢
        omega

lemma chunksOf_flatten (n : Nat) (l : List α) : (chunksOf n l).flatten = l :=
  chunksOfAux_flatten n l.length l (le_refl _)

lemma foldl_append_eq_flatten : ∀ (L : List (List α)) (acc : List α),
    L.foldl (fun a b => a ++ b) acc = acc ++ L.flatten := by
  intro L
  induction L with
  | nil => intro acc; simp
  | cons x xs ih =>
    intro acc
    rw [List.foldl_cons, ih, List.flatten_cons, List.append_assoc]

/-- The incremental hash over the read chunks is the hash of the file's
full content: the chunks concatenate back to the content. -/
lemma get_hash_eq_content (e : DirEntry) : get_hash e = hexdigest (blake2s e.content) := by
  unfold get_hash readChunks
  rw [foldl_append_eq_flatten, chunksOf_flatten, List.nil_append]

lemma length_compress (h m : List Nat) (t : Nat) (f : Bool) :
    (compress h m t f).length = 8 := by
  unfold compress
  simp

lemma length_blake2sLoop (ll : Nat) :
    ∀ (blocks : List (List Nat)) (h : List Nat) (processed : Nat),
      h.length = 8 → (blake2sLoop ll h blocks processed).length = 8 := by
  intro blocks
  induction blocks with
  | nil => intro h p hh; exact hh
  | cons b rest ih =>
    intro h p hh
    cases rest with
    | nil => exact length_compress h (bytesToWordsLE b) ll true
    | cons b2 rest2 =>
      show (blake2sLoop ll (compress h (bytesToWordsLE b) (p + 64) false)
        (b2 :: rest2) (p + 64)).length = 8
      exact ih _ _ (length_compress h (bytesToWordsLE b) (p + 64) false)

lemma length_flatMap_wordToBytes : ∀ (L : List Nat),
    (L.flatMap wordToBytesLE).length = 4 * L.length := by
  intro L
  induction L with
  | nil => rfl
  | cons x xs ih =>
    rw [List.flatMap_cons, List.length_append, ih]
    simp [wordToBytesLE]
    ring

/-- A BLAKE2s digest always is 32 bytes long. -/
lemma length_blake2s (msg : List Nat) : (blake2s msg).length = 32 := by
  have hdef : blake2s msg = ((blake2sLoop msg.length
      ((0x6A09E667 ^^^ 0x01010020) :: IVect.drop 1)
      (if msg.isEmpty then [List.replicate 64 0]
        else chunksOf 63 (msg ++ List.replicate ((64 - msg.length % 64) % 64) 0))
      0).take 8).flatMap wordToBytesLE := rfl
  have hloop := length_blake2sLoop msg.length
    (if msg.isEmpty then [List.replicate 64 0]
      else chunksOf 63 (msg ++ List.replicate ((64 - msg.length % 64) % 64) 0))
    ((0x6A09E667 ^^^ 0x01010020) :: IVect.drop 1) 0 (by rfl)
  rw [hdef, length_flatMap_wordToBytes, List.length_take, hloop]
  decide

/-- Every byte of a BLAKE2s digest is below 256. -/
lemma mem_blake2s_lt (msg : List Nat) (b : Nat) (hb : b ∈ blake2s msg) : b < 256 := by
  have hdef : blake2s msg = ((blake2sLoop msg.length
      ((0x6A09E667 ^^^ 0x01010020) :: IVect.drop 1)
      (if msg.isEmpty then [List.replicate 64 0]
        else chunksOf 63 (msg ++ List.replicate ((64 - msg.length % 64) % 64) 0))
      0).take 8).flatMap wordToBytesLE := rfl
  rw [hdef, List.mem_flatMap] at hb
  obtain ⟨w, _, hw⟩ := hb
  unfold wordToBytesLE at hw
  rcases (by simpa using hw : b = w % 256 ∨ b = w / 256 % 256 ∨
      b = w / 65536 % 256 ∨ b = w / 16777216 % 256) with rfl | rfl | rfl | rfl <;>
    exact Nat.mod_lt _ (by norm_num)

lemma length_flatMap_hexOfByte : ∀ (bytes : List Nat),
    (bytes.flatMap hexOfByte).length = 2 * bytes.length := by
  intro bytes
  induction bytes with
  | nil => rfl
  | cons b bs ih =>
    rw [List.flatMap_cons, List.length_append, ih]
    simp [hexOfByte]
    ring

lemma length_hexdigest (bytes : List Nat) : (hexdigest bytes).length = 2 * bytes.length := by
  rw [show (hexdigest bytes).length = (bytes.flatMap hexOfByte).length from rfl,
    length_flatMap_hexOfByte]

lemma hexChar_mem_of_lt (n : Nat) (h : n < 16) : hexChar n ∈ hexAlphabet := by
  interval_cases n <;> decide

lemma mem_hexdigest_hexAlphabet (bytes : List Nat) (hb : ∀ b ∈ bytes, b < 256) :
    ∀ c ∈ (hexdigest bytes).toList, c ∈ hexAlphabet := by
  intro c hc
  rw [show (hexdigest bytes).toList = bytes.flatMap hexOfByte from rfl,
    List.mem_flatMap] at hc
  obtain ⟨b, hbm, hcb⟩ := hc
  have hblt := hb b hbm
  unfold hexOfByte at hcb
  rcases (by simpa using hcb : c = hexChar (b / 16) ∨ c = hexChar (b % 16)) with rfl | rfl
  · exact hexChar_mem_of_lt _ (Nat.div_lt_of_lt_mul (by omega))
  · exact hexChar_mem_of_lt _ (Nat.mod_lt _ (by norm_num))

/-- C9: every key of the result mapping is the `get_hash` of each of its
members, which is the BLAKE2s-256 hexdigest of the member's full byte
content: a string of exactly 64 characters, all of them lowercase
hexadecimal digits. -/
theorem result_keys_are_hexdigests (listing : List DirEntry) :
    ∀ p ∈ duplicates listing, ∀ e ∈ p.2,
      p.1 = get_hash e ∧
      get_hash e = hexdigest (blake2s e.content) ∧
      (get_hash e).length = 64 ∧
      ∀ c ∈ (get_hash e).toList, c ∈ hexAlphabet := by
  intro p hp e he
  obtain ⟨k, v⟩ := p
  have hpv := (mem_duplicates_iff listing k v).mp hp
  rw [hpv.2] at he
  have hk : get_hash e = k := by simpa using (List.mem_filter.mp he).2
  refine ⟨hk.symm, get_hash_eq_content e, ?_, ?_⟩
  · rw [get_hash_eq_content, length_hexdigest, length_blake2s]
  · rw [get_hash_eq_content]
    exact mem_hexdigest_hexAlphabet _ (fun b hb => mem_blake2s_lt _ b hb)

set_option maxRecDepth 1000000 in
/-- Witness: in the scenario, the single result key equals `get_hash`
of `a.txt`, which is the 64-character hexdigest of its content. -/
theorem result_keys_are_hexdigests_witness :
    "19213bacc58dee6dbde3ceb9a47cbb330b3d86f8cca8997eb00be456f140ca25" = get_hash aTxt ∧
    get_hash aTxt = hexdigest (blake2s aTxt.content) ∧
    (get_hash aTxt).length = 64 := by
  have h := result_keys_are_hexdigests sampleDir
    ("19213bacc58dee6dbde3ceb9a47cbb330b3d86f8cca8997eb00be456f140ca25", [aTxt, bTxt])
    (by decide) aTxt (by decide)
  exact ⟨h.1, h.2.1, h.2.2.1⟩

/-- C10: when at least two scanned files are zero-byte, the chunked read
loop of each runs zero iterations (no chunks), hashing them succeeds
with the digest of the empty stream, and one single duplicate set of the
final result contains every zero-byte file. -/
theorem zero_byte_files_grouped (listing : List DirEntry)
    (h2 : 2 ≤ ((scan_for_files listing).filter (fun e => e.content.isEmpty)).length) :
    readChunks [] = [] ∧ zeroHashOk listing ∧ zeroesTogether listing := by
  have hgz : ∀ e : DirEntry, e.content = [] → get_hash e = hexdigest (blake2s []) := by
    intro e hc
    rw [get_hash_eq_content, hc]
  have hfil : (scan_for_files listing).filter (fun e => e.content.isEmpty) =
      (scan_for_files listing).filter (fun x => x.st_size = 0) := by
    apply List.filter_congr
    intro e _
    cases hc : e.content <;> simp [DirEntry.st_size, hc]
  rw [hfil] at h2
  have hzmem : ∀ e ∈ scan_for_files listing, e.content = [] →
      e ∈ (scan_for_files listing).filter (fun x => x.st_size = 0) := by
    intro e he hc
    exact List.mem_filter.mpr ⟨he, by simp [DirEntry.st_size, hc]⟩
  have hbucket : (0, (scan_for_files listing).filter (fun x => x.st_size = 0)) ∈
      find_duplicates_size (scan_for_files listing) :=
    (mem_find_duplicates_size_iff _ 0 _).mpr ⟨h2, rfl⟩
  have hzH : ∀ e ∈ scan_for_files listing, e.content = [] →
      e ∈ hashInvocations listing := by
    intro e he hc
    unfold hashInvocations
    rw [List.mem_flatten]
    exact ⟨(scan_for_files listing).filter (fun x => x.st_size = 0),
      List.mem_map_of_mem Prod.snd hbucket, hzmem e he hc⟩
  refine ⟨rfl, fun e he hc => hgz e hc, ?_⟩
  have hzsub : ((scan_for_files listing).filter (fun x => x.st_size = 0)).Sublist
      (hashInvocations listing) := by
    unfold hashInvocations
    exact List.sublist_flatten_of_mem (List.mem_map_of_mem Prod.snd hbucket)
  have hzero_content : ∀ x ∈ (scan_for_files listing).filter (fun x => x.st_size = 0),
      x.content = [] := by
    intro x hx
    have hx2 := (List.mem_filter.mp hx).2
    simp [DirEntry.st_size] at hx2
    exact hx2
  have hself : ((scan_for_files listing).filter (fun x => x.st_size = 0)).filter
      (fun x => get_hash x = hexdigest (blake2s [])) =
      (scan_for_files listing).filter (fun x => x.st_size = 0) := by
    rw [List.filter_eq_self]
    intro x hx
    simp [hgz x (hzero_content x hx)]
  have hlenk : 1 < ((hashInvocations listing).filter
      (fun x => get_hash x = hexdigest (blake2s []))).length := by
    have hs := (hzsub.filter (fun x => decide (get_hash x = hexdigest (blake2s [])))).length_le
    rw [hself] at hs
    omega
  have hpair : (hexdigest (blake2s []), (hashInvocations listing).filter
      (fun x => get_hash x = hexdigest (blake2s []))) ∈ duplicates listing :=
    (mem_duplicates_iff listing _ _).mpr ⟨hlenk, rfl⟩
  exact ⟨_, hpair, fun e he hc =>
    List.mem_filter.mpr ⟨hzH e he hc, by simp [hgz e hc]⟩⟩

set_option maxRecDepth 1000000 in
/-- Witness: a directory with two zero-byte files and one nonempty file
has all its zero-byte files in one duplicate set of the result. -/
theorem zero_byte_files_grouped_witness :
    readChunks [] = [] ∧ zeroHashOk zDir ∧ zeroesTogether zDir :=
  zero_byte_files_grouped zDir (by decide)

end ScanDup
